import Mathlib

/-!
Verification development for the revert-analysis pipeline in
src/revert_data (data_processing.py, seniority_processing.py).

Conventions of the shallow embedding:
* `datetime` values are modelled as natural numbers of seconds on a
  proleptic Gregorian time line; `datetime` subtraction and `timedelta`
  comparisons become integer arithmetic (24 hours = 86400 seconds).
* Python runtime failures (`ValueError`, `IndexError`, `KeyError`,
  `StopIteration`, `TypeError`) are modelled with `Except Err`; a raised
  exception aborts the enclosing computation exactly where the source
  raises it, mirroring the statement order of the source.
* Python `dict`s (which preserve insertion order) are association lists;
  `d.setdefault(k, []).append(v)` and `d[k] = v` keep the first matching
  key, appending new keys at the end, as CPython does.
* Python `float` seniority values are idealised as rationals in the graph
  pipeline; `math.log(n, 10)` in `process_edit_data` is kept as an explicit
  function parameter so that the claims about its values can instantiate it
  with the real logarithm.
* Structural equality of Python lists/dicts (`==`, `in`) becomes decidable
  equality of the corresponding Lean structures.
-/

/-- Python runtime errors that the modelled code can raise. -/
inductive Err where
  | valueError
  | indexError
  | keyError
  | stopIteration
  | typeError
deriving DecidableEq, Repr

/-- A value held in one of the heterogeneous lists built by
`parse_content`: a raw string token, a parsed datetime (seconds), or an
integer produced by Python `int`. -/
inductive Val where
  | str (s : String)
  | dt (t : Nat)
  | int (n : Int)
deriving DecidableEq, Repr

/-- Tokeniser for Python `str.split()` with no separator: walk the
characters, splitting on runs of blanks and discarding empty pieces;
`cur` holds the characters of the token in progress, reversed. -/
def splitWs : List Char → List Char → List String
  | [], [] => []
  | [], cur => [String.mk cur.reverse]
  | c :: cs, cur =>
      if c = ' ' ∨ c = '\t' then
        match cur with
        | [] => splitWs cs []
        | _ :: _ => String.mk cur.reverse :: splitWs cs []
      else splitWs cs (c :: cur)

/-- Python `str.split()` with no separator: split on runs of blanks,
discarding empty pieces (the preceding `.strip()` in the source is
subsumed, since `split()` already ignores leading and trailing blanks). -/
def pySplit (s : String) : List String :=
  splitWs s.toList []

/-- Python `' '.join`. -/
def joinSpace (l : List String) : String :=
  String.intercalate " " l

/-- The numeric value of a decimal digit character, if it is one. -/
def digitVal (c : Char) : Option Nat :=
  if c.isDigit then some (c.toNat - 48) else none

/-- Value of a two-digit decimal numeral. -/
def twoDigits (a b : Char) : Option Nat := do
  let x ← digitVal a
  let y ← digitVal b
  pure (10 * x + y)

/-- Value of a four-digit decimal numeral. -/
def fourDigits (a b c d : Char) : Option Nat := do
  let x ← twoDigits a b
  let y ← twoDigits c d
  pure (100 * x + y)

/-- Gregorian leap-year test. -/
def isLeap (y : Nat) : Bool :=
  (y % 4 = 0 && y % 100 ≠ 0) || y % 400 = 0

/-- Number of days in a month of a given year. -/
def daysInMonth (y m : Nat) : Nat :=
  if m = 2 then (if isLeap y then 29 else 28)
  else if m = 4 ∨ m = 6 ∨ m = 9 ∨ m = 11 then 30
  else 31

/-- Days in the months strictly before month `m` of year `y`. -/
def daysBeforeMonth (y m : Nat) : Nat :=
  (List.range (m - 1)).foldl (fun acc i => acc + daysInMonth y (i + 1)) 0

/-- Seconds on a proleptic Gregorian time line for a validated
year/month/day/hour/minute/second tuple. -/
def toSeconds (y mo dy hh mi ss : Nat) : Nat :=
  (((y - 1) * 365 + (y - 1) / 4 - (y - 1) / 100 + (y - 1) / 400
      + daysBeforeMonth y mo + (dy - 1)) * 86400)
    + hh * 3600 + mi * 60 + ss

/-- Model of `datetime.strptime(s, "%Y-%m-%d %H:%M:%S")`: accepts exactly
the fixed-width calendar format with in-range fields and returns the
corresponding second count; everything else raises `ValueError`. -/
def strptimeYmdHms (s : String) : Except Err Nat :=
  match s.toList with
  | [y1, y2, y3, y4, '-', m1, m2, '-', d1, d2, ' ',
     h1, h2, ':', n1, n2, ':', s1, s2] =>
      match fourDigits y1 y2 y3 y4, twoDigits m1 m2, twoDigits d1 d2,
            twoDigits h1 h2, twoDigits n1 n2, twoDigits s1 s2 with
      | some y, some mo, some dy, some hh, some mi, some ss =>
          if 1 ≤ y ∧ 1 ≤ mo ∧ mo ≤ 12 ∧ 1 ≤ dy ∧ dy ≤ daysInMonth y mo
              ∧ hh < 24 ∧ mi < 60 ∧ ss < 60 then
            Except.ok (toSeconds y mo dy hh mi ss)
          else Except.error Err.valueError
      | _, _, _, _, _, _ => Except.error Err.valueError
  | _ => Except.error Err.valueError

/-- Value of a nonempty digit string, else `ValueError`. -/
def digitsToNat : List Char → Except Err Nat
  | [] => Except.error Err.valueError
  | l =>
    l.foldlM
      (fun acc c =>
        match digitVal c with
        | some d => Except.ok (acc * 10 + d)
        | none => Except.error Err.valueError) 0

/-- Model of Python `int(s)` on a string: optional sign followed by a
nonempty run of decimal digits. -/
def pyInt (s : String) : Except Err Int :=
  match s.toList with
  | '-' :: rest => (digitsToNat rest).map (fun n => -(n : Int))
  | '+' :: rest => (digitsToNat rest).map (fun n => (n : Int))
  | l => (digitsToNat l).map (fun n => (n : Int))

/-- The in-place transformation applied to one content element by the
`for element in content` loop of `parse_content` (lines 24-27 of
data_processing.py), on the token list already shorn of its leading token:
`element[0] = strptime(' '.join(element[:2]), ...)`, then
`element[1:] = element[2:]`, then `element[2] = int(element[2])`.
Raises exactly where the source does: `ValueError` from `strptime` or
`int`, `IndexError` when the shifted list has no index 2. -/
def transform_element (e : List String) : Except Err (List Val) := do
  let ts ← strptimeYmdHms (joinSpace (e.take 2))
  match e.drop 2 with
  | a :: b :: rest => do
      let n ← pyInt b
      pure (Val.dt ts :: Val.str a :: Val.int n :: rest.map Val.str)
  | _ => Except.error Err.indexError

/-- One data line of the file as processed by `parse_content`:
`x.strip().split()[1:]` followed by the element transformation. -/
def parse_line (line : String) : Except Err (List Val) :=
  transform_element ((pySplit line).drop 1)

/-- Model of `parse_content` (data_processing.py lines 10-29) on the list
of lines of the file: `next(f)` discards the header line (raising
`StopIteration` on an empty file), the remaining lines are split, shorn of
their first token and transformed in place; the first raising line aborts
the whole call, as the loop's exception propagates. -/
def parse_content : List String → Except Err (List (List Val))
  | [] => Except.error Err.stopIteration
  | _ :: rest => rest.mapM parse_line

/-- A parsed edit record as used by the pipeline after `parse_content`:
index 0 (`TIME_INDEX`) the timestamp, index 1 (`REVERT_INDEX`) the raw
revert-flag token, index 2 (`VERSION_INDEX`) the integer version, index 3
(`NAME_INDEX`) the editor name. Python list equality is field-wise
equality. -/
structure Record where
  time : Nat
  revert : String
  version : Int
  name : String
deriving DecidableEq, Repr

/-- One `{'time': ..., 'seniority': ...}` entry of an editor's seniority
series. -/
structure SenEntry (α : Type) where
  time : Nat
  seniority : α
deriving DecidableEq, Repr

/-- An insertion-ordered Python dict from editor name to seniority
series. -/
abbrev EditDic (α : Type) : Type := List (String × List (SenEntry α))

/-- Python `d[k]` as an option: the value at the first (unique, for a real
dict) matching key. -/
def dictGet? {β : Type} : List (String × β) → String → Option β
  | [], _ => none
  | (k', v) :: rest, k => if k' = k then some v else dictGet? rest k

/-- Lookup with a default, modelling `d.get(k, dflt)`. -/
def dictGetD {β : Type} (d : List (String × β)) (k : String) (dflt : β) : β :=
  (dictGet? d k).getD dflt

/-- Python `d[k] = v`: replace the value at the first matching key,
otherwise append the new key at the end (insertion order). -/
def dictSet {β : Type} : List (String × β) → String → β → List (String × β)
  | [], k, v => [(k, v)]
  | (k', w) :: rest, k, v =>
      if k' = k then (k', v) :: rest else (k', w) :: dictSet rest k v

/-- Python `d.setdefault(k, []).append(v)`: append `v` to the list at the
first matching key, creating the key at the end if absent. -/
def dictAppendAt {β : Type} :
    List (String × List β) → String → β → List (String × List β)
  | [], k, v => [(k, [v])]
  | (k', l) :: rest, k, v =>
      if k' = k then (k', l ++ [v]) :: rest else (k', l) :: dictAppendAt rest k v

/-- Model of `process_edit_data` (data_processing.py lines 31-51),
parametrised by the seniority function `log` standing for
`math.log(count, 10)`: scans the records in order, increments the
per-editor edit count starting from 1 and appends a seniority entry for
each edit to that editor's series. -/
def process_edit_data {α : Type} (log : Nat → α) (content_sorted : List Record) :
    EditDic α :=
  (content_sorted.foldl
    (fun (st : List (String × Nat) × EditDic α) edit =>
      let name := edit.name
      let c := dictGetD st.1 name 0 + 1
      (dictSet st.1 name c,
       dictAppendAt st.2 name ⟨edit.time, log c⟩))
    ([], [])).2

/-- A revert edge as appended by `process_revert_data`: the dict
`{'reverted': ..., 'time': ..., 'seniority_reverter': ...,
'seniority_reverted': ...}`. -/
structure Edge where
  reverted : String
  time : Nat
  seniority_reverter : ℚ
  seniority_reverted : ℚ
deriving DecidableEq, Repr

/-- The `revert_data` dict: reverter name mapped to the (insertion-ordered)
list of edges produced for that reverter. -/
abbrev Graph : Type := List (String × List Edge)

/-- All edges of the graph in iteration order (the flattening of the
per-reverter lists). -/
def allEdges (g : Graph) : List Edge :=
  (g.map Prod.snd).flatten

/-- Sum of the per-reverter list lengths, as counted by
`print_network_data` and the aggregator invariant of the spec. -/
def totalEdges (g : Graph) : Nat :=
  (g.map (fun p => p.2.length)).sum

/-- Python `l[i]` on a natural index: `IndexError` out of bounds. -/
def pyGet {β : Type} (l : List β) (i : Nat) : Except Err β :=
  match l.get? i with
  | some x => Except.ok x
  | none => Except.error Err.indexError

/-- Python `content.index(x)`: the position of the first structurally
equal element, raising `ValueError` when there is none. -/
def pyListIndex : List Record → Record → Except Err Nat
  | [], _ => Except.error Err.valueError
  | r :: rest, x =>
      if r = x then Except.ok 0
      else (pyListIndex rest x).map (· + 1)

/-- Model of `process_revert_data` (data_processing.py lines 83-109):
fetch both seniority series (`KeyError` on a missing editor), find in each
the first entry whose time equals the corresponding record's timestamp
(`next` without default: `StopIteration` on a miss), and only then append
the new edge under the reverter's name. The statement order of the source
is preserved, so an error leaves the graph untouched. -/
def process_revert_data (potential_revert potential_reverted : Record)
    (edit_dic : EditDic ℚ) (revert_data : Graph) : Except Err Graph := do
  let revert_seniority_data ←
    match dictGet? edit_dic potential_revert.name with
    | some l => Except.ok l
    | none => Except.error Err.keyError
  let reverted_seniority_data ←
    match dictGet? edit_dic potential_reverted.name with
    | some l => Except.ok l
    | none => Except.error Err.keyError
  let reverter_entry ←
    match revert_seniority_data.find? (fun e => e.time = potential_revert.time) with
    | some e => Except.ok e
    | none => Except.error Err.stopIteration
  let reverted_entry ←
    match reverted_seniority_data.find? (fun e => e.time = potential_reverted.time) with
    | some e => Except.ok e
    | none => Except.error Err.stopIteration
  pure (dictAppendAt revert_data potential_revert.name
    { reverted := potential_reverted.name
      time := potential_revert.time
      seniority_reverter := reverter_entry.seniority
      seniority_reverted := reverted_entry.seniority })

/-- The inner `for i in range(index + 1, max_num_iterations)` loop of
`find_revert_data` (lines 71-79), with `i` the current index and `steps`
the number of remaining iterations: fetch `content[i]` (`IndexError` past
the end), and on the first version match inspect `content[i-1]`; a
same-name predecessor ends the candidate with no edge, otherwise the edge
is recorded and the loop breaks. -/
def scan_revert (content : List Record) (potential_revert : Record)
    (edit_dic : EditDic ℚ) (revert_data : Graph) :
    Nat → Nat → Except Err Graph
  | _, 0 => Except.ok revert_data
  | i, steps + 1 => do
      let c ← pyGet content i
      if c.version = potential_revert.version then
        let pd ← pyGet content (i - 1)
        if pd.name = potential_revert.name then
          Except.ok revert_data
        else
          process_revert_data potential_revert pd edit_dic revert_data
      else
        scan_revert content potential_revert edit_dic revert_data (i + 1) steps

/-- Processing of one candidate by `find_revert_data`: locate the
candidate with `content.index` (`ValueError` when absent), compute
`max_num_iterations = index + (max_num_versions - version)` and run the
scan from `index + 1`. -/
def process_potential_revert (content : List Record) (potential_revert : Record)
    (edit_dic : EditDic ℚ) (max_num_versions : Int) (revert_data : Graph) :
    Except Err Graph := do
  let idx ← pyListIndex content potential_revert
  let bound : Int := (idx : Int) + (max_num_versions - potential_revert.version)
  scan_revert content potential_revert edit_dic revert_data (idx + 1)
    (bound - ((idx : Int) + 1)).toNat

/-- Model of `find_revert_data` (data_processing.py lines 53-81): fold the
candidate processing over `potential_reverts`, starting from the empty
dict; any raised error propagates out of the whole call. -/
def find_revert_data (content : List Record) (potential_reverts : List Record)
    (edit_dic : EditDic ℚ) (max_num_versions : Int) : Except Err Graph :=
  potential_reverts.foldlM
    (fun g pr => process_potential_revert content pr edit_dic max_num_versions g)
    []

/-- The mutable pair threaded through the motif matcher: the
`ab_ba_seniorities` result list and the `considered_reverts` list used as
a consumed set. -/
structure AbBaState where
  ab_ba_seniorities : List ℚ
  considered_reverts : List Edge
deriving DecidableEq, Repr

/-- `calculate_seniority_differences` (seniority_processing.py lines
3-13). -/
def calculate_seniority_differences (revert : Edge) : ℚ :=
  |revert.seniority_reverter - revert.seniority_reverted|

/-- Model of `find_ab_ba_seniorities` (seniority_processing.py lines
35-61): pair the two edges exactly when the time difference lies in
[0, 24 hours], the reverted edge points back at `key`, and neither edge is
already in `considered_reverts` (membership is Python `in`, i.e. structural
equality); on success both edges are appended to `considered_reverts` and
the reverter edge's seniority difference to `ab_ba_seniorities`. -/
def find_ab_ba_seniorities (reverted_edge reverters_edge : Edge) (key : String)
    (st : AbBaState) : AbBaState :=
  let time_difference : Int := (reverted_edge.time : Int) - (reverters_edge.time : Int)
  if 0 ≤ time_difference ∧ time_difference ≤ 86400
      ∧ reverted_edge.reverted = key
      ∧ reverters_edge ∉ st.considered_reverts
      ∧ reverted_edge ∉ st.considered_reverts then
    { ab_ba_seniorities :=
        st.ab_ba_seniorities ++ [calculate_seniority_differences reverters_edge]
      considered_reverts := st.considered_reverts ++ [reverters_edge, reverted_edge] }
  else st

/-- Model of `process_reverter` (data_processing.py lines 111-130): for
each edge of the reverter, when its reverted editor is a key of
`revert_data`, try to pair it with every edge of that editor. -/
def process_reverter (reverter_key : String) (reverter_data : List Edge)
    (revert_data : Graph) (st : AbBaState) : AbBaState :=
  reverter_data.foldl
    (fun st revert =>
      match dictGet? revert_data revert.reverted with
      | some entries =>
          entries.foldl
            (fun st entry => find_ab_ba_seniorities entry revert reverter_key st)
            st
      | none => st)
    st

/-- Model of `process_all_revert_data` (data_processing.py lines 132-149):
run `process_reverter` over the items of the dict in insertion order,
starting from empty lists. -/
def process_all_revert_data (revert_data : Graph) : AbBaState :=
  revert_data.foldl
    (fun st p => process_reverter p.1 p.2 revert_data st)
    ⟨[], []⟩

/-- Model of `get_non_ab_ba_seniorities` (seniority_processing.py lines
15-33): collect the seniority difference of every edge of the graph whose
value is not in `considered_reverts`. -/
def get_non_ab_ba_seniorities (revert_data : Graph) (considered_reverts : List Edge) :
    List ℚ :=
  revert_data.foldl
    (fun differences p =>
      p.2.foldl
        (fun differences revert =>
          if revert ∈ considered_reverts then differences
          else differences ++ [calculate_seniority_differences revert])
        differences)
    []

/-- Graph with every occurrence of the edge value `v` removed, used to
state that a consumed value is invisible to the aggregator. -/
def eraseEdgeValue (v : Edge) (g : Graph) : Graph :=
  g.map (fun p => (p.1, p.2.filter (fun e => e ≠ v)))

/-- The `considered_reverts` list laid out as consecutive
(reverter edge, reverted edge) pairs, one per successful AB-BA pairing,
in the order `find_ab_ba_seniorities` appends them. -/
def flattenPairs (pairs : List (Edge × Edge)) : List Edge :=
  (pairs.map (fun p => [p.1, p.2])).flatten

/-- Two AB-BA pairings use no common edge value. -/
def pairsDisjoint (p q : Edge × Edge) : Prop :=
  p.1 ≠ q.1 ∧ p.1 ≠ q.2 ∧ p.2 ≠ q.1 ∧ p.2 ≠ q.2

/-! ### Dictionary lemmas -/

theorem dictGet?_dictSet_self {β : Type} (d : List (String × β)) (k : String) (v : β) :
    dictGet? (dictSet d k v) k = some v := by
  induction d with
  | nil => simp [dictSet, dictGet?]
  | cons p rest ih =>
      obtain ⟨k1, w⟩ := p
      by_cases h : k1 = k
      · simp [dictSet, h, dictGet?]
      · simp [dictSet, h, dictGet?, ih]

theorem dictGet?_dictSet_ne {β : Type} (d : List (String × β)) (k k2 : String) (v : β)
    (h : k2 ≠ k) : dictGet? (dictSet d k v) k2 = dictGet? d k2 := by
  induction d with
  | nil => simp [dictSet, dictGet?, Ne.symm h]
  | cons p rest ih =>
      obtain ⟨k1, w⟩ := p
      by_cases h1 : k1 = k
      · subst h1
        simp [dictSet, dictGet?, Ne.symm h]
      · simp [dictSet, h1, dictGet?, ih]

theorem dictGet?_dictAppendAt_self {β : Type} (d : List (String × List β)) (k : String)
    (v : β) :
    dictGet? (dictAppendAt d k v) k = some ((dictGetD d k []) ++ [v]) := by
  induction d with
  | nil => simp [dictAppendAt, dictGet?, dictGetD]
  | cons p rest ih =>
      obtain ⟨k1, w⟩ := p
      by_cases h : k1 = k
      · simp [dictAppendAt, h, dictGet?, dictGetD]
      · simp [dictAppendAt, h, dictGet?, dictGetD, ih]

theorem dictGet?_dictAppendAt_ne {β : Type} (d : List (String × List β)) (k k2 : String)
    (v : β) (h : k2 ≠ k) :
    dictGet? (dictAppendAt d k v) k2 = dictGet? d k2 := by
  induction d with
  | nil => simp [dictAppendAt, dictGet?, Ne.symm h]
  | cons p rest ih =>
      obtain ⟨k1, w⟩ := p
      by_cases h1 : k1 = k
      · subst h1
        simp [dictAppendAt, dictGet?, Ne.symm h]
      · simp [dictAppendAt, h1, dictGet?, ih]

theorem dictGetD_eq_of_get? {β : Type} {d : List (String × β)} {k : String} {v : β}
    (h : dictGet? d k = some v) (dflt : β) : dictGetD d k dflt = v := by
  simp [dictGetD, h]

theorem mem_allEdges_of_mem {g : Graph} {k : String} {l : List Edge} {e : Edge}
    (hp : (k, l) ∈ g) (he : e ∈ l) : e ∈ allEdges g := by
  simp only [allEdges, List.mem_flatten]
  exact ⟨l, List.mem_map.2 ⟨(k, l), hp, rfl⟩, he⟩

theorem mem_allEdges_of_dictGet? {g : Graph} {k : String} {l : List Edge} {e : Edge}
    (hp : dictGet? g k = some l) (he : e ∈ l) : e ∈ allEdges g := by
  induction g with
  | nil => simp [dictGet?] at hp
  | cons p rest ih =>
      obtain ⟨k1, w⟩ := p
      by_cases h : k1 = k
      · simp [dictGet?, h] at hp
        subst hp
        exact mem_allEdges_of_mem (List.mem_cons_self _ _) he
      · simp only [dictGet?, h, if_false] at hp
        have : e ∈ allEdges rest := ih hp
        simp only [allEdges, List.map_cons, List.flatten_cons, List.mem_append]
        right
        exact this

/-! ### Except bind computation lemmas -/

theorem except_error_bind {ε α β : Type} (e : ε) (k : α → Except ε β) :
    (Except.error e >>= k) = Except.error e := rfl

theorem except_ok_bind {ε α β : Type} (a : α) (k : α → Except ε β) :
    (Except.ok a >>= k) = k a := rfl

/-! ### Fold preservation lemmas -/

theorem foldl_preserve {β σ : Type} (f : σ → β → σ) (P : σ → Prop) :
    ∀ (l : List β) (s : σ), (∀ s b, b ∈ l → P s → P (f s b)) → P s → P (l.foldl f s)
  | [], s, _, hs => hs
  | b :: l, s, hstep, hs =>
      foldl_preserve f P l (f s b)
        (fun s2 b2 hb2 => hstep s2 b2 (List.mem_cons_of_mem _ hb2))
        (hstep s b (List.mem_cons_self _ _) hs)

theorem foldlM_ok_preserve {β σ ε : Type} (f : σ → β → Except ε σ) (P : σ → Prop) :
    ∀ (l : List β) (s s2 : σ),
      (∀ t b t2, b ∈ l → P t → f t b = Except.ok t2 → P t2) →
      P s → l.foldlM f s = Except.ok s2 → P s2 := by
  intro l
  induction l with
  | nil =>
      intro s s2 _ hs h
      simp only [List.foldlM_nil] at h
      cases h
      exact hs
  | cons b rest ih =>
      intro s s2 hstep hs h
      simp only [List.foldlM_cons] at h
      cases hfb : f s b with
      | error e => rw [hfb, except_error_bind] at h; exact absurd h (by simp)
      | ok s1 =>
          rw [hfb, except_ok_bind] at h
          have h1 : rest.foldlM f s1 = Except.ok s2 := h
          exact ih s1 s2
            (fun t bb t2 hbb => hstep t bb t2 (List.mem_cons_of_mem _ hbb))
            (hstep s b s1 (List.mem_cons_self _ _) hs hfb) h1

/-! ### Lemmas about the motif matcher state -/

theorem find_ab_ba_of_consumed (reverted_edge reverters_edge : Edge) (key : String)
    (st : AbBaState)
    (h : reverters_edge ∈ st.considered_reverts ∨ reverted_edge ∈ st.considered_reverts) :
    find_ab_ba_seniorities reverted_edge reverters_edge key st = st := by
  rw [find_ab_ba_seniorities, if_neg]
  intro hc
  rcases h with h | h
  · exact hc.2.2.2.1 h
  · exact hc.2.2.2.2 h

theorem getNonAbBa_inner_fold (c : List Edge) (l : List Edge) :
    ∀ acc : List ℚ,
      l.foldl
        (fun differences revert =>
          if revert ∈ c then differences
          else differences ++ [calculate_seniority_differences revert])
        acc
      = acc ++ (l.filter (fun e => !(decide (e ∈ c)))).map calculate_seniority_differences := by
  induction l with
  | nil => intro acc; simp
  | cons e l ih =>
      intro acc
      by_cases he : e ∈ c
      · simp [List.foldl_cons, he, ih]
      · simp [List.foldl_cons, he, ih]

theorem get_non_ab_ba_eq_filter (g : Graph) (c : List Edge) :
    get_non_ab_ba_seniorities g c
    = ((allEdges g).filter (fun e => !(decide (e ∈ c)))).map
        calculate_seniority_differences := by
  suffices h : ∀ (g : Graph) (acc : List ℚ),
      g.foldl
        (fun differences p =>
          p.2.foldl
            (fun differences revert =>
              if revert ∈ c then differences
              else differences ++ [calculate_seniority_differences revert])
            differences)
        acc
      = acc ++ ((allEdges g).filter (fun e => !(decide (e ∈ c)))).map
          calculate_seniority_differences by
    simpa [get_non_ab_ba_seniorities] using h g []
  intro g
  induction g with
  | nil => intro acc; simp [allEdges]
  | cons p g ih =>
      intro acc
      rw [List.foldl_cons, ih, getNonAbBa_inner_fold]
      simp [allEdges, List.filter_append, List.append_assoc]

theorem allEdges_eraseEdgeValue (v : Edge) (g : Graph) :
    allEdges (eraseEdgeValue v g) = (allEdges g).filter (fun e => decide (e ≠ v)) := by
  induction g with
  | nil => simp [allEdges, eraseEdgeValue]
  | cons p g ih =>
      simp only [allEdges, eraseEdgeValue, List.map_cons, List.flatten_cons,
        List.filter_append] at ih ⊢
      rw [ih]

theorem filter_not_mem_filter_ne (v : Edge) (c : List Edge) (hv : v ∈ c) (l : List Edge) :
    ((l.filter (fun e => decide (e ≠ v))).filter (fun e => !(decide (e ∈ c))))
    = l.filter (fun e => !(decide (e ∈ c))) := by
  rw [List.filter_filter]
  apply List.filter_congr
  intro a _
  by_cases hac : a ∈ c
  · simp [hac]
  · have hav : a ≠ v := fun h => hac (h ▸ hv)
    simp [hac, hav]

/-! ### Lemmas about list index lookup and revert-data processing -/

theorem pyListIndex_error_of_forall (l : List Record) (x : Record)
    (h : ∀ r ∈ l, r ≠ x) : pyListIndex l x = Except.error Err.valueError := by
  induction l with
  | nil => rfl
  | cons r rest ih =>
      rw [pyListIndex, if_neg (h r (List.mem_cons_self _ _)),
        ih (fun a ha => h a (List.mem_cons_of_mem _ ha))]
      rfl

theorem pyListIndex_ok_first (l : List Record) (x : Record) :
    ∀ i, pyListIndex l x = Except.ok i →
      ∃ h : i < l.length,
        l.get ⟨i, h⟩ = x ∧ ∀ j, (hj : j < l.length) → j < i → l.get ⟨j, hj⟩ ≠ x := by
  induction l with
  | nil => intro i h; exact absurd h (by simp [pyListIndex])
  | cons r rest ih =>
      intro i h
      by_cases hr : r = x
      · rw [pyListIndex, if_pos hr] at h
        cases h
        exact ⟨Nat.succ_pos _, hr, fun j hj hji => absurd hji (Nat.not_lt_zero j)⟩
      · rw [pyListIndex, if_neg hr] at h
        cases hrec : pyListIndex rest x with
        | error e => rw [hrec] at h; exact absurd h (by simp [Except.map])
        | ok i0 =>
            rw [hrec] at h
            have hi : i = i0 + 1 := by
              have h2 := h
              simp [Except.map] at h2
              exact h2.symm
            subst hi
            obtain ⟨hlt, hget, hfirst⟩ := ih i0 hrec
            refine ⟨Nat.succ_lt_succ hlt, hget, ?_⟩
            intro j hj hji
            cases j with
            | zero => exact hr
            | succ j0 =>
                exact hfirst j0 (Nat.lt_of_succ_lt_succ hj) (Nat.lt_of_succ_lt_succ hji)

theorem process_revert_data_ok_shape (pr pd : Record) (dic : EditDic ℚ) (g g2 : Graph)
    (h : process_revert_data pr pd dic g = Except.ok g2) :
    ∃ sr sv, g2 = dictAppendAt g pr.name
      { reverted := pd.name, time := pr.time,
        seniority_reverter := sr, seniority_reverted := sv } := by
  unfold process_revert_data at h
  cases h1 : dictGet? dic pr.name with
  | none => rw [h1] at h; exact absurd h (by simp [except_error_bind])
  | some l1 =>
      rw [h1] at h
      simp only [except_ok_bind] at h
      cases h2 : dictGet? dic pd.name with
      | none => rw [h2] at h; exact absurd h (by simp [except_error_bind])
      | some l2 =>
          rw [h2] at h
          simp only [except_ok_bind] at h
          cases h3 : l1.find? (fun e => e.time = pr.time) with
          | none => rw [h3] at h; exact absurd h (by simp [except_error_bind])
          | some e1 =>
              rw [h3] at h
              simp only [except_ok_bind] at h
              cases h4 : l2.find? (fun e => e.time = pd.time) with
              | none => rw [h4] at h; exact absurd h (by simp [except_error_bind])
              | some e2 =>
                  rw [h4] at h
                  simp only [except_ok_bind, pure] at h
                  cases h
                  exact ⟨e1.seniority, e2.seniority, rfl⟩

theorem dictAppendAt_pair_prop {β : Type} (P : String → β → Prop) :
    ∀ (d : List (String × List β)) (k : String) (v : β),
      (∀ p ∈ d, ∀ x ∈ p.2, P p.1 x) → P k v →
      ∀ p ∈ dictAppendAt d k v, ∀ x ∈ p.2, P p.1 x := by
  intro d
  induction d with
  | nil =>
      intro k v _ hkv p hp x hx
      simp [dictAppendAt] at hp
      subst hp
      simp at hx
      subst hx
      exact hkv
  | cons q rest ih =>
      intro k v hd hkv p hp x hx
      obtain ⟨k1, l1⟩ := q
      by_cases h : k1 = k
      · rw [dictAppendAt, if_pos h] at hp
        rcases List.mem_cons.1 hp with hp | hp
        · subst hp
          rcases List.mem_append.1 hx with hx | hx
          · exact hd (k1, l1) (List.mem_cons_self _ _) x hx
          · simp at hx
            subst hx
            exact h ▸ hkv
        · exact hd p (List.mem_cons_of_mem _ hp) x hx
      · rw [dictAppendAt, if_neg h] at hp
        rcases List.mem_cons.1 hp with hp | hp
        · subst hp
          exact hd (k1, l1) (List.mem_cons_self _ _) x hx
        · exact ih k v (fun q hq => hd q (List.mem_cons_of_mem _ hq)) hkv p hp x hx

theorem scan_revert_ok_preserve (content : List Record) (pr : Record) (dic : EditDic ℚ)
    (P : Graph → Prop)
    (hP : ∀ g pd g2, pd.name ≠ pr.name →
      process_revert_data pr pd dic g = Except.ok g2 → P g → P g2) :
    ∀ (steps i : Nat) (g g2 : Graph), P g →
      scan_revert content pr dic g i steps = Except.ok g2 → P g2 := by
  intro steps
  induction steps with
  | zero =>
      intro i g g2 hg h
      rw [scan_revert] at h
      cases h
      exact hg
  | succ n ih =>
      intro i g g2 hg h
      rw [scan_revert] at h
      cases hc : pyGet content i with
      | error e => rw [hc, except_error_bind] at h; exact absurd h (by simp)
      | ok c =>
          rw [hc, except_ok_bind] at h
          by_cases hv : c.version = pr.version
          · rw [if_pos hv] at h
            cases hpd : pyGet content (i - 1) with
            | error e => rw [hpd, except_error_bind] at h; exact absurd h (by simp)
            | ok pd =>
                rw [hpd, except_ok_bind] at h
                by_cases hn : pd.name = pr.name
                · rw [if_pos hn] at h
                  cases h
                  exact hg
                · rw [if_neg hn] at h
                  exact hP g pd g2 hn h hg
          · rw [if_neg hv] at h
            exact ih (i + 1) g g2 hg h

theorem process_potential_revert_ok_preserve (content : List Record) (pr : Record)
    (dic : EditDic ℚ) (max : Int) (P : Graph → Prop)
    (hP : ∀ g pd g2, pd.name ≠ pr.name →
      process_revert_data pr pd dic g = Except.ok g2 → P g → P g2)
    (g g2 : Graph) (hg : P g)
    (h : process_potential_revert content pr dic max g = Except.ok g2) : P g2 := by
  rw [process_potential_revert] at h
  cases hi : pyListIndex content pr with
  | error e => rw [hi, except_error_bind] at h; exact absurd h (by simp)
  | ok idx =>
      rw [hi, except_ok_bind] at h
      exact scan_revert_ok_preserve content pr dic P hP _ _ g g2 hg h

theorem find_revert_data_ok_preserve (content prs : List Record) (dic : EditDic ℚ)
    (max : Int) (P : Graph → Prop)
    (hP : ∀ pr g pd g2, pd.name ≠ pr.name →
      process_revert_data pr pd dic g = Except.ok g2 → P g → P g2)
    (g2 : Graph) (hinit : P [])
    (h : find_revert_data content prs dic max = Except.ok g2) : P g2 := by
  rw [find_revert_data] at h
  exact foldlM_ok_preserve _ P prs [] g2
    (fun t pr t2 _ ht hstep =>
      process_potential_revert_ok_preserve content pr dic max P
        (fun g pd gg hn hh hg => hP pr g pd gg hn hh hg) t t2 ht hstep)
    hinit h

/-! ### Claim theorems -/

/-- Claim C3: for a pair tested by find_ab_ba_seniorities whose reverted
edge points back at the reverter key and with neither edge consumed, the
pair is accepted (both edges appended to the considered list and the
seniority difference recorded) exactly when the time delta
reverted_edge.time - reverters_edge.time lies in [0, 24 hours]; so a delta
of exactly 24h00m00s is accepted while 24h00m01s and all negative deltas
are rejected. -/
theorem find_ab_ba_window_iff (reverted_edge reverters_edge : Edge) (key : String)
    (st : AbBaState)
    (h1 : reverted_edge.reverted = key)
    (h2 : reverters_edge ∉ st.considered_reverts)
    (h3 : reverted_edge ∉ st.considered_reverts) :
    find_ab_ba_seniorities reverted_edge reverters_edge key st =
      { ab_ba_seniorities :=
          st.ab_ba_seniorities ++ [calculate_seniority_differences reverters_edge]
        considered_reverts :=
          st.considered_reverts ++ [reverters_edge, reverted_edge] }
    ↔ (0 ≤ (reverted_edge.time : Int) - (reverters_edge.time : Int)
        ∧ (reverted_edge.time : Int) - (reverters_edge.time : Int) ≤ 86400) := by
  by_cases hw : 0 ≤ (reverted_edge.time : Int) - (reverters_edge.time : Int)
      ∧ (reverted_edge.time : Int) - (reverters_edge.time : Int) ≤ 86400
  · rw [find_ab_ba_seniorities]
    rw [if_pos ⟨hw.1, hw.2, h1, h2, h3⟩]
    simp [hw]
  · rw [find_ab_ba_seniorities]
    rw [if_neg (fun hc => hw ⟨hc.1, hc.2.1⟩)]
    constructor
    · intro h
      have hlen := congrArg (fun s => s.considered_reverts.length) h
      simp at hlen
    · intro h
      exact absurd h hw

/-- Witness for C3 at a concrete accepted pair with delta exactly 24
hours. -/
theorem find_ab_ba_window_iff_witness :
    ((⟨"K", 86400, 0, 0⟩ : Edge).reverted = "K")
    ∧ ((⟨"X", 0, 1, 3⟩ : Edge) ∉ (⟨[], []⟩ : AbBaState).considered_reverts)
    ∧ ((⟨"K", 86400, 0, 0⟩ : Edge) ∉ (⟨[], []⟩ : AbBaState).considered_reverts)
    ∧ (find_ab_ba_seniorities ⟨"K", 86400, 0, 0⟩ ⟨"X", 0, 1, 3⟩ "K" ⟨[], []⟩ =
        { ab_ba_seniorities :=
            ([] : List ℚ) ++ [calculate_seniority_differences ⟨"X", 0, 1, 3⟩]
          considered_reverts := ([] : List Edge) ++ [⟨"X", 0, 1, 3⟩, ⟨"K", 86400, 0, 0⟩] }
      ↔ (0 ≤ ((⟨"K", 86400, 0, 0⟩ : Edge).time : Int) - ((⟨"X", 0, 1, 3⟩ : Edge).time : Int)
          ∧ ((⟨"K", 86400, 0, 0⟩ : Edge).time : Int) - ((⟨"X", 0, 1, 3⟩ : Edge).time : Int)
            ≤ 86400)) :=
  ⟨rfl, by simp, by simp,
    find_ab_ba_window_iff ⟨"K", 86400, 0, 0⟩ ⟨"X", 0, 1, 3⟩ "K" ⟨[], []⟩ rfl
      (by simp) (by simp)⟩

/-- Claim C8: when the candidate's or the reverted record's timestamp has
no matching entry in the corresponding editor seniority series (including
the editor missing from the dict entirely), process_revert_data surfaces
an error; since the lookups precede the append in the source, no edge is
appended to the graph in that case (the error result carries no updated
graph). -/
theorem process_revert_data_lookup_miss_error (pr pd : Record) (dic : EditDic ℚ)
    (g : Graph)
    (h : (∀ e ∈ dictGetD dic pr.name [], e.time ≠ pr.time)
       ∨ (∀ e ∈ dictGetD dic pd.name [], e.time ≠ pd.time)) :
    ∃ err, process_revert_data pr pd dic g = Except.error err := by
  cases h1 : dictGet? dic pr.name with
  | none =>
      exact ⟨Err.keyError, by simp [process_revert_data, h1, except_error_bind]⟩
  | some l1 =>
      cases h2 : dictGet? dic pd.name with
      | none =>
          exact ⟨Err.keyError,
            by simp [process_revert_data, h1, h2, except_ok_bind, except_error_bind]⟩
      | some l2 =>
          rcases h with hmiss | hmiss
          · have hl1 : dictGetD dic pr.name [] = l1 := dictGetD_eq_of_get? h1 []
            have hfind : l1.find? (fun e => e.time = pr.time) = none := by
              rw [List.find?_eq_none]
              intro x hx
              simpa using hmiss x (hl1 ▸ hx)
            exact ⟨Err.stopIteration,
              by simp [process_revert_data, h1, h2, hfind, except_ok_bind,
                except_error_bind]⟩
          · have hl2 : dictGetD dic pd.name [] = l2 := dictGetD_eq_of_get? h2 []
            have hfind : l2.find? (fun e => e.time = pd.time) = none := by
              rw [List.find?_eq_none]
              intro x hx
              simpa using hmiss x (hl2 ▸ hx)
            cases h3 : l1.find? (fun e => e.time = pr.time) with
            | none =>
                exact ⟨Err.stopIteration,
                  by simp [process_revert_data, h1, h2, h3, except_ok_bind,
                    except_error_bind]⟩
            | some e1 =>
                exact ⟨Err.stopIteration,
                  by simp [process_revert_data, h1, h2, h3, hfind, except_ok_bind,
                    except_error_bind]⟩

/-- Witness for C8: a candidate whose timestamp misses its editor's
series. -/
theorem process_revert_data_lookup_miss_error_witness :
    ((∀ e ∈ dictGetD [("A", [(⟨99, 0⟩ : SenEntry ℚ)])] (Record.name ⟨5, "0", 1, "A"⟩) [],
        SenEntry.time e ≠ Record.time ⟨5, "0", 1, "A"⟩)
      ∨ (∀ e ∈ dictGetD [("A", [(⟨99, 0⟩ : SenEntry ℚ)])] (Record.name ⟨3, "0", 1, "B"⟩) [],
        SenEntry.time e ≠ Record.time ⟨3, "0", 1, "B"⟩))
    ∧ ∃ err, process_revert_data ⟨5, "0", 1, "A"⟩ ⟨3, "0", 1, "B"⟩
        [("A", [(⟨99, 0⟩ : SenEntry ℚ)])] [] = Except.error err :=
  ⟨Or.inl (by decide),
    process_revert_data_lookup_miss_error ⟨5, "0", 1, "A"⟩ ⟨3, "0", 1, "B"⟩
      [("A", [(⟨99, 0⟩ : SenEntry ℚ)])] [] (Or.inl (by decide))⟩

/-- Claim C9: consumed-edge membership is by structural (field-value)
equality. If an edge value v is in the considered list, then a call to
find_ab_ba_seniorities in which either tested edge equals v leaves the
state unchanged (so any occurrence of that value, not just the consumed
one, can never join a pair), and the non-AB-BA differences list computed
against a considered list containing v is unchanged when every occurrence
of v is erased from the graph (all of them are already excluded). -/
theorem consumed_value_blocks_and_excludes (v entry rvt : Edge) (key : String)
    (st : AbBaState) (g : Graph) (c : List Edge)
    (hst : v ∈ st.considered_reverts)
    (harg : entry = v ∨ rvt = v)
    (hc : v ∈ c) :
    find_ab_ba_seniorities entry rvt key st = st
    ∧ get_non_ab_ba_seniorities g c = get_non_ab_ba_seniorities (eraseEdgeValue v g) c := by
  constructor
  · apply find_ab_ba_of_consumed
    rcases harg with h | h
    · right; rw [h]; exact hst
    · left; rw [h]; exact hst
  · rw [get_non_ab_ba_eq_filter, get_non_ab_ba_eq_filter, allEdges_eraseEdgeValue,
      filter_not_mem_filter_ne v c hc]

/-- Witness for C9 at a concrete consumed value. -/
theorem consumed_value_blocks_and_excludes_witness :
    ((⟨"A", 0, 0, 0⟩ : Edge) ∈ (⟨[], [⟨"A", 0, 0, 0⟩]⟩ : AbBaState).considered_reverts)
    ∧ ((⟨"A", 0, 0, 0⟩ : Edge) = ⟨"A", 0, 0, 0⟩ ∨ (⟨"B", 1, 2, 3⟩ : Edge) = ⟨"A", 0, 0, 0⟩)
    ∧ ((⟨"A", 0, 0, 0⟩ : Edge) ∈ [(⟨"A", 0, 0, 0⟩ : Edge)])
    ∧ (find_ab_ba_seniorities ⟨"A", 0, 0, 0⟩ ⟨"B", 1, 2, 3⟩ "A"
          ⟨[], [⟨"A", 0, 0, 0⟩]⟩ = ⟨[], [⟨"A", 0, 0, 0⟩]⟩
        ∧ get_non_ab_ba_seniorities [("X", [⟨"A", 0, 0, 0⟩])] [⟨"A", 0, 0, 0⟩]
          = get_non_ab_ba_seniorities
              (eraseEdgeValue ⟨"A", 0, 0, 0⟩ [("X", [⟨"A", 0, 0, 0⟩])])
              [⟨"A", 0, 0, 0⟩]) :=
  ⟨by simp, Or.inl rfl, by simp,
    consumed_value_blocks_and_excludes ⟨"A", 0, 0, 0⟩ ⟨"A", 0, 0, 0⟩ ⟨"B", 1, 2, 3⟩ "A"
      ⟨[], [⟨"A", 0, 0, 0⟩]⟩ [("X", [⟨"A", 0, 0, 0⟩])] [⟨"A", 0, 0, 0⟩]
      (by simp) (Or.inl rfl) (by simp)⟩

/-- Claim C6: a revert graph returned successfully by find_revert_data
never contains an edge whose reverted editor equals the reverter key it is
stored under: the same-editor guard in the scan prevents any such edge
from being appended. -/
theorem find_revert_data_no_self_revert (content prs : List Record) (dic : EditDic ℚ)
    (maxv : Int) (g2 : Graph) (k : String) (l : List Edge) (e : Edge)
    (h : find_revert_data content prs dic maxv = Except.ok g2)
    (hp : (k, l) ∈ g2) (he : e ∈ l) : e.reverted ≠ k := by
  have hstep : ∀ (pr : Record) (g : Graph) (pd : Record) (gg : Graph),
      pd.name ≠ pr.name → process_revert_data pr pd dic g = Except.ok gg →
      (∀ p ∈ g, ∀ x ∈ p.2, Edge.reverted x ≠ p.1) →
      (∀ p ∈ gg, ∀ x ∈ p.2, Edge.reverted x ≠ p.1) := by
    intro pr g pd gg hn hok hg
    obtain ⟨sr, sv, rfl⟩ := process_revert_data_ok_shape pr pd dic g gg hok
    exact dictAppendAt_pair_prop (fun kk x => Edge.reverted x ≠ kk) g pr.name
      { reverted := pd.name, time := pr.time,
        seniority_reverter := sr, seniority_reverted := sv } hg hn
  exact find_revert_data_ok_preserve content prs dic maxv
    (fun g => ∀ p ∈ g, ∀ x ∈ p.2, Edge.reverted x ≠ p.1)
    hstep g2 (by simp) h (k, l) hp e he

/-- Witness for C6: a run that emits one edge, whose reverted editor
differs from its reverter key. -/
theorem find_revert_data_no_self_revert_witness :
    (find_revert_data [⟨100, "1", 1, "B"⟩, ⟨50, "0", 2, "C"⟩, ⟨10, "1", 1, "A"⟩]
        [⟨100, "1", 1, "B"⟩]
        [("B", [(⟨100, 1⟩ : SenEntry ℚ)]), ("C", [(⟨50, 2⟩ : SenEntry ℚ)])] 4
      = Except.ok [("B", [⟨"C", 100, 1, 2⟩])])
    ∧ (("B", [(⟨"C", 100, 1, 2⟩ : Edge)]) ∈ [("B", [(⟨"C", 100, 1, 2⟩ : Edge)])])
    ∧ ((⟨"C", 100, 1, 2⟩ : Edge) ∈ [(⟨"C", 100, 1, 2⟩ : Edge)])
    ∧ (⟨"C", 100, 1, 2⟩ : Edge).reverted ≠ "B" :=
  ⟨by rfl, by simp, by simp,
    find_revert_data_no_self_revert
      [⟨100, "1", 1, "B"⟩, ⟨50, "0", 2, "C"⟩, ⟨10, "1", 1, "A"⟩] [⟨100, "1", 1, "B"⟩]
      [("B", [(⟨100, 1⟩ : SenEntry ℚ)]), ("C", [(⟨50, 2⟩ : SenEntry ℚ)])] 4
      [("B", [⟨"C", 100, 1, 2⟩])] "B" [⟨"C", 100, 1, 2⟩] ⟨"C", 100, 1, 2⟩
      (by rfl) (by simp) (by simp)⟩

/-- Claim C10: if some candidate in potential_reverts is not structurally
equal to any record of content, find_revert_data fails with an error
raised by the content.index lookup rather than skipping the candidate; and
content.index, when it succeeds, returns the position of the first
structurally equal record (so the forward scan of a duplicated candidate
starts from the first occurrence). -/
theorem find_revert_data_missing_candidate (content prs : List Record) (dic : EditDic ℚ)
    (maxv : Int) (c : Record)
    (h1 : c ∈ prs) (h2 : ∀ r ∈ content, r ≠ c) :
    (∃ e, find_revert_data content prs dic maxv = Except.error e)
    ∧ ∀ (x : Record) (i : Nat), pyListIndex content x = Except.ok i →
        ∃ h : i < content.length,
          content.get ⟨i, h⟩ = x ∧ ∀ j, (hj : j < content.length) → j < i →
            content.get ⟨j, hj⟩ ≠ x := by
  constructor
  · have main : ∀ (prs2 : List Record) (g : Graph), c ∈ prs2 →
        ∃ e, prs2.foldlM
          (fun g pr => process_potential_revert content pr dic maxv g) g
          = Except.error e := by
      intro prs2
      induction prs2 with
      | nil => intro g hc; simp at hc
      | cons p rest ih =>
          intro g hc
          rw [List.foldlM_cons]
          by_cases hpc : p = c
          · subst hpc
            have hidx : process_potential_revert content p dic maxv g
                = Except.error Err.valueError := by
              rw [process_potential_revert, pyListIndex_error_of_forall content p h2]
              rfl
            rw [hidx, except_error_bind]
            exact ⟨Err.valueError, rfl⟩
          · cases hstep : process_potential_revert content p dic maxv g with
            | error e => exact ⟨e, rfl⟩
            | ok g1 =>
                refine ih g1 ?_
                rcases List.mem_cons.1 hc with h | h
                · exact absurd h.symm hpc
                · exact h
    rw [find_revert_data]
    exact main prs [] h1
  · intro x i h
    exact pyListIndex_ok_first content x i h

/-- Witness for C10: one absent candidate makes the whole call fail. -/
theorem find_revert_data_missing_candidate_witness :
    ((⟨2, "0", 1, "B"⟩ : Record) ∈ [(⟨2, "0", 1, "B"⟩ : Record)])
    ∧ (∀ r ∈ [(⟨1, "0", 1, "A"⟩ : Record)], r ≠ ⟨2, "0", 1, "B"⟩)
    ∧ (∃ e, find_revert_data [⟨1, "0", 1, "A"⟩] [⟨2, "0", 1, "B"⟩]
        ([] : EditDic ℚ) 5 = Except.error e) :=
  ⟨by simp, by decide,
    (find_revert_data_missing_candidate [⟨1, "0", 1, "A"⟩] [⟨2, "0", 1, "B"⟩]
      [] 5 ⟨2, "0", 1, "B"⟩ (by simp) (by decide)).1⟩

theorem joinSpace_pair (a b : String) : joinSpace [a, b] = a ++ " " ++ b := rfl

theorem parse_line_of_six (l : String) (w d t r v nm : String) (ts : Nat) (n : Int)
    (hsplit : pySplit l = [w, d, t, r, v, nm])
    (hts : strptimeYmdHms (d ++ " " ++ t) = Except.ok ts)
    (hn : pyInt v = Except.ok n) :
    parse_line l = Except.ok [Val.dt ts, Val.str r, Val.int n, Val.str nm] := by
  rw [parse_line, hsplit]
  show transform_element [d, t, r, v, nm] = _
  unfold transform_element
  rw [show joinSpace ([d, t, r, v, nm].take 2) = d ++ " " ++ t from rfl, hts,
    except_ok_bind]
  show (do
    let n2 ← pyInt v
    pure (Val.dt ts :: Val.str r :: Val.int n2 :: [nm].map Val.str) :
      Except Err (List Val)) = _
  rw [hn, except_ok_bind]
  rfl

/-- Claim C1 counterexample: a file whose data line consists of one
ignorable leading token followed by exactly the four fields date
(YYYY-MM-DD), time (HH:MM:SS), an integer version and an editor-name, as
the claim prescribes, makes parse_content raise a ValueError: after the
index shift, int() is applied to the editor-name token, so no record is
returned at all. -/
theorem parse_content_four_fields_counterexample :
    parse_content ["header", "x 2002-02-25 22:51:31 15 Alice"]
      = Except.error Err.valueError := by rfl

/-- Claim C1 amended: data lines carry one ignorable leading token
followed by FIVE whitespace-separated fields: date, time, a revert-flag
token, an integer version, and an editor-name. On such input parse_content
returns one record per data line of the form
[timestamp, revert-flag, version, editor-name], with the timestamp parsed
from date and time, the integer at index 2 (VERSION_INDEX) the parsed
version field and the string at index 3 (NAME_INDEX) the editor-name. -/
theorem parse_content_five_fields_ok (hdr : String) (lines : List String)
    (h : ∀ l ∈ lines, ∃ w d t r v nm ts n,
      pySplit l = [w, d, t, r, v, nm]
      ∧ strptimeYmdHms (d ++ " " ++ t) = Except.ok ts
      ∧ pyInt v = Except.ok n) :
    ∃ out, parse_content (hdr :: lines) = Except.ok out
      ∧ out.length = lines.length
      ∧ List.Forall₂ (fun l rec => ∀ w d t r v nm,
          pySplit l = [w, d, t, r, v, nm] →
          ∃ ts n, strptimeYmdHms (d ++ " " ++ t) = Except.ok ts
            ∧ pyInt v = Except.ok n
            ∧ rec = [Val.dt ts, Val.str r, Val.int n, Val.str nm]) lines out := by
  induction lines with
  | nil => exact ⟨[], rfl, rfl, List.Forall₂.nil⟩
  | cons l rest ih =>
      obtain ⟨w, d, t, r, v, nm, ts, n, hsplit, hts, hn⟩ :=
        h l (List.mem_cons_self _ _)
      obtain ⟨out, hout, hlen, hfa⟩ := ih (fun x hx => h x (List.mem_cons_of_mem _ hx))
      refine ⟨[Val.dt ts, Val.str r, Val.int n, Val.str nm] :: out, ?_, ?_, ?_⟩
      · show (l :: rest).mapM parse_line = _
        rw [List.mapM_cons, parse_line_of_six l w d t r v nm ts n hsplit hts hn,
          except_ok_bind]
        have hrest : rest.mapM parse_line = Except.ok out := hout
        rw [hrest, except_ok_bind]
        rfl
      · simpa using hlen
      · refine List.Forall₂.cons ?_ hfa
        intro w2 d2 t2 r2 v2 nm2 h2
        rw [hsplit] at h2
        simp only [List.cons.injEq, and_true] at h2
        obtain ⟨rfl, rfl, rfl, rfl, rfl, rfl⟩ := h2
        exact ⟨ts, n, hts, hn, rfl⟩

/-- Witness for the amended C1 on a concrete five-field data line. -/
theorem parse_content_five_fields_ok_witness :
    (∀ l ∈ ["title 2002-02-25 22:51:31 0 15 Alice"], ∃ w d t r v nm ts n,
      pySplit l = [w, d, t, r, v, nm]
      ∧ strptimeYmdHms (d ++ " " ++ t) = Except.ok ts
      ∧ pyInt v = Except.ok n)
    ∧ ∃ out, parse_content ["header", "title 2002-02-25 22:51:31 0 15 Alice"]
        = Except.ok out
      ∧ out.length = ["title 2002-02-25 22:51:31 0 15 Alice"].length
      ∧ List.Forall₂ (fun l rec => ∀ w d t r v nm,
          pySplit l = [w, d, t, r, v, nm] →
          ∃ ts n, strptimeYmdHms (d ++ " " ++ t) = Except.ok ts
            ∧ pyInt v = Except.ok n
            ∧ rec = [Val.dt ts, Val.str r, Val.int n, Val.str nm])
        ["title 2002-02-25 22:51:31 0 15 Alice"] out := by
  have hl : ∀ l ∈ ["title 2002-02-25 22:51:31 0 15 Alice"], ∃ w d t r v nm ts n,
      pySplit l = [w, d, t, r, v, nm]
      ∧ strptimeYmdHms (d ++ " " ++ t) = Except.ok ts
      ∧ pyInt v = Except.ok n := by
    intro l hl
    rw [List.mem_singleton] at hl
    subst hl
    exact ⟨"title", "2002-02-25", "22:51:31", "0", "15", "Alice", _, _, rfl, rfl, rfl⟩
  exact ⟨hl, parse_content_five_fields_ok "header"
    ["title 2002-02-25 22:51:31 0 15 Alice"] hl⟩

theorem scan_revert_out_of_range (content : List Record) (pr : Record) (dic : EditDic ℚ)
    (g0 : Graph) (i steps : Nat) (g2 : Graph) (hi : content.length ≤ i)
    (h : scan_revert content pr dic g0 i steps = Except.ok g2) : g2 = g0 := by
  cases steps with
  | zero => rw [scan_revert] at h; cases h; rfl
  | succ n =>
      rw [scan_revert] at h
      have hnone : content.get? i = none := List.get?_eq_none.2 hi
      have hget : pyGet content i = Except.error Err.indexError := by
        rw [pyGet, hnone]
      rw [hget, except_error_bind] at h
      exact absurd h (by simp)

theorem scan_revert_twin_same_name (x : Record) (dic : EditDic ℚ) (g0 : Graph) :
    ∀ (steps : Nat) (g2 : Graph),
      scan_revert [x, x] x dic g0 1 steps = Except.ok g2 → g2 = g0 := by
  intro steps g2 h
  cases steps with
  | zero => rw [scan_revert] at h; cases h; rfl
  | succ n =>
      rw [scan_revert] at h
      have h1 : pyGet [x, x] 1 = Except.ok x := rfl
      rw [h1, except_ok_bind, if_pos rfl] at h
      have h0 : pyGet [x, x] (1 - 1) = Except.ok x := rfl
      rw [h0, except_ok_bind, if_pos rfl] at h
      cases h
      rfl

/-- Claim C2 counterexample: for the two-record content
[(t0, v1, A), (t1, v1, B)] with the candidate list holding exactly B's
edit and max_num_versions = 2 (which the claim allows), find_revert_data
returns the empty mapping: no RevertEdge at all is emitted, contradicting
the claimed single edge with reverter B and reverted A. -/
theorem find_revert_data_two_record_counterexample :
    find_revert_data [⟨0, "0", 1, "A"⟩, ⟨10, "0", 1, "B"⟩] [⟨10, "0", 1, "B"⟩]
      ([] : EditDic ℚ) 2 = Except.ok [] := by rfl

/-- Claim C2 amended: on the two-record content [(t0, v, A), (t1, v, B)]
with the candidate list holding exactly B's record, find_revert_data never
emits an edge for any max_num_versions: the forward scan starts after the
candidate's position, so whenever the call returns successfully the
returned mapping is empty (with larger bounds the scan instead runs past
the end of the list and fails with an IndexError). -/
theorem find_revert_data_two_record_no_edge (t0 t1 : Nat) (r0 r1 A B : String)
    (v : Int) (dic : EditDic ℚ) (maxv : Int) (hmax : 2 ≤ maxv) (g : Graph)
    (h : find_revert_data [⟨t0, r0, v, A⟩, ⟨t1, r1, v, B⟩] [⟨t1, r1, v, B⟩] dic maxv
      = Except.ok g) : g = [] := by
  rw [find_revert_data] at h
  simp only [List.foldlM_cons, List.foldlM_nil] at h
  cases hp : process_potential_revert [⟨t0, r0, v, A⟩, ⟨t1, r1, v, B⟩]
      ⟨t1, r1, v, B⟩ dic maxv [] with
  | error e =>
      rw [hp, except_error_bind] at h
      exact absurd h (by simp)
  | ok g1 =>
      rw [hp, except_ok_bind] at h
      have hok : Except.ok g1 = Except.ok g := h
      have hg : g1 = g := Except.ok.inj hok
      subst hg
      rw [process_potential_revert] at hp
      by_cases hab : (⟨t0, r0, v, A⟩ : Record) = ⟨t1, r1, v, B⟩
      · rw [Record.mk.injEq] at hab
        obtain ⟨ht, hr, -, hA⟩ := hab
        subst ht; subst hr; subst hA
        have hidx : pyListIndex [(⟨t0, r0, v, A⟩ : Record), ⟨t0, r0, v, A⟩]
            ⟨t0, r0, v, A⟩ = Except.ok 0 := by
          rw [pyListIndex, if_pos rfl]
        rw [hidx, except_ok_bind] at hp
        exact scan_revert_twin_same_name ⟨t0, r0, v, A⟩ dic [] _ g1 hp
      · have hidx : pyListIndex [(⟨t0, r0, v, A⟩ : Record), ⟨t1, r1, v, B⟩]
            ⟨t1, r1, v, B⟩ = Except.ok 1 := by
          rw [pyListIndex, if_neg hab, pyListIndex, if_pos rfl]
          rfl
        rw [hidx, except_ok_bind] at hp
        exact scan_revert_out_of_range _ _ dic [] (1 + 1) _ g1 (by simp) hp

/-- Witness for the amended C2 at a concrete two-record input with
max_num_versions = 2. -/
theorem find_revert_data_two_record_no_edge_witness :
    (2 ≤ (2 : Int))
    ∧ (find_revert_data [⟨5, "0", 1, "X"⟩, ⟨7, "0", 1, "Y"⟩] [⟨7, "0", 1, "Y"⟩]
        ([] : EditDic ℚ) 2 = Except.ok ([] : Graph))
    ∧ (([] : Graph) = []) :=
  ⟨by decide, by rfl,
    find_revert_data_two_record_no_edge 5 7 "0" "0" "X" "Y" 1 [] 2 (by decide) []
      (by rfl)⟩

/-! ### The pairs decomposition of the considered list -/

theorem flattenPairs_append (pairs : List (Edge × Edge)) (p : Edge × Edge) :
    flattenPairs (pairs ++ [p]) = flattenPairs pairs ++ [p.1, p.2] := by
  simp [flattenPairs]

theorem fst_mem_flattenPairs {pairs : List (Edge × Edge)} {p : Edge × Edge}
    (hp : p ∈ pairs) : p.1 ∈ flattenPairs pairs := by
  simp only [flattenPairs, List.mem_flatten]
  exact ⟨[p.1, p.2], List.mem_map.2 ⟨p, hp, rfl⟩, by simp⟩

theorem snd_mem_flattenPairs {pairs : List (Edge × Edge)} {p : Edge × Edge}
    (hp : p ∈ pairs) : p.2 ∈ flattenPairs pairs := by
  simp only [flattenPairs, List.mem_flatten]
  exact ⟨[p.1, p.2], List.mem_map.2 ⟨p, hp, rfl⟩, by simp⟩

theorem find_ab_ba_preserves_pairs (entry rvt : Edge) (key : String) (st : AbBaState)
    (h : ∃ pairs : List (Edge × Edge),
      st.considered_reverts = flattenPairs pairs
      ∧ List.Pairwise pairsDisjoint pairs
      ∧ st.ab_ba_seniorities.length = pairs.length) :
    ∃ pairs : List (Edge × Edge),
      (find_ab_ba_seniorities entry rvt key st).considered_reverts = flattenPairs pairs
      ∧ List.Pairwise pairsDisjoint pairs
      ∧ (find_ab_ba_seniorities entry rvt key st).ab_ba_seniorities.length
        = pairs.length := by
  obtain ⟨pairs, hc, hd, hl⟩ := h
  rw [find_ab_ba_seniorities]
  by_cases hcond : 0 ≤ (entry.time : Int) - (rvt.time : Int)
      ∧ (entry.time : Int) - (rvt.time : Int) ≤ 86400
      ∧ entry.reverted = key
      ∧ rvt ∉ st.considered_reverts
      ∧ entry ∉ st.considered_reverts
  · rw [if_pos hcond]
    obtain ⟨-, -, -, hrv, hen⟩ := hcond
    refine ⟨pairs ++ [(rvt, entry)], ?_, ?_, ?_⟩
    · simp [flattenPairs_append, hc]
    · rw [List.pairwise_append]
      refine ⟨hd, by simp [pairsDisjoint], ?_⟩
      intro p hp q hq
      rw [List.mem_singleton] at hq
      subst hq
      have h1 : p.1 ∈ st.considered_reverts := hc ▸ fst_mem_flattenPairs hp
      have h2 : p.2 ∈ st.considered_reverts := hc ▸ snd_mem_flattenPairs hp
      simp only [pairsDisjoint]
      exact ⟨fun he => hrv (he ▸ h1), fun he => hen (he ▸ h1),
        fun he => hrv (he ▸ h2), fun he => hen (he ▸ h2)⟩
    · simp [hl]
  · rw [if_neg hcond]
    exact ⟨pairs, hc, hd, hl⟩

theorem process_reverter_preserves_pairs (key : String) (lst : List Edge) (g : Graph)
    (st : AbBaState)
    (h : ∃ pairs : List (Edge × Edge),
      st.considered_reverts = flattenPairs pairs
      ∧ List.Pairwise pairsDisjoint pairs
      ∧ st.ab_ba_seniorities.length = pairs.length) :
    ∃ pairs : List (Edge × Edge),
      (process_reverter key lst g st).considered_reverts = flattenPairs pairs
      ∧ List.Pairwise pairsDisjoint pairs
      ∧ (process_reverter key lst g st).ab_ba_seniorities.length = pairs.length := by
  rw [process_reverter]
  refine foldl_preserve _ (fun st : AbBaState => ∃ pairs : List (Edge × Edge),
      st.considered_reverts = flattenPairs pairs
      ∧ List.Pairwise pairsDisjoint pairs
      ∧ st.ab_ba_seniorities.length = pairs.length) lst st ?_ h
  intro s revert _ hs
  cases hd : dictGet? g revert.reverted with
  | none => exact hs
  | some entries =>
      refine foldl_preserve _ (fun st : AbBaState => ∃ pairs : List (Edge × Edge),
          st.considered_reverts = flattenPairs pairs
          ∧ List.Pairwise pairsDisjoint pairs
          ∧ st.ab_ba_seniorities.length = pairs.length) entries s ?_ hs
      intro s2 entry _ hs2
      exact find_ab_ba_preserves_pairs entry revert key s2 hs2

/-- Claim C4: over a whole run of process_all_revert_data, the considered
list decomposes into the list of consecutive (reverters_edge,
reverted_edge) pairs appended by the successful pairings, one pairing per
recorded AB-BA seniority, and no edge value occurs in two different
pairings: once an edge is placed in considered_reverts by a pairing, no
later call to find_ab_ba_seniorities ever consumes it again. -/
theorem process_all_revert_data_at_most_once (g : Graph) :
    ∃ pairs : List (Edge × Edge),
      (process_all_revert_data g).considered_reverts = flattenPairs pairs
      ∧ List.Pairwise pairsDisjoint pairs
      ∧ (process_all_revert_data g).ab_ba_seniorities.length = pairs.length := by
  rw [process_all_revert_data]
  refine foldl_preserve _ (fun st : AbBaState => ∃ pairs : List (Edge × Edge),
      st.considered_reverts = flattenPairs pairs
      ∧ List.Pairwise pairsDisjoint pairs
      ∧ st.ab_ba_seniorities.length = pairs.length) g ⟨[], []⟩ ?_
    ⟨[], rfl, List.Pairwise.nil, rfl⟩
  intro s p _ hs
  exact process_reverter_preserves_pairs p.1 p.2 g s hs

/-! ### Distinct-edge counting for the aggregator invariant -/

theorem find_ab_ba_preserves_nodup (g : Graph) (entry rvt : Edge) (key : String)
    (st : AbBaState)
    (hen : entry ∈ allEdges g) (hrv : rvt ∈ allEdges g)
    (hne : entry.reverted = key → entry ≠ rvt)
    (h : st.considered_reverts.Nodup
      ∧ (∀ e ∈ st.considered_reverts, e ∈ allEdges g)
      ∧ st.considered_reverts.length = 2 * st.ab_ba_seniorities.length) :
    (find_ab_ba_seniorities entry rvt key st).considered_reverts.Nodup
    ∧ (∀ e ∈ (find_ab_ba_seniorities entry rvt key st).considered_reverts,
        e ∈ allEdges g)
    ∧ (find_ab_ba_seniorities entry rvt key st).considered_reverts.length
      = 2 * (find_ab_ba_seniorities entry rvt key st).ab_ba_seniorities.length := by
  obtain ⟨hnd, hsub, hlen⟩ := h
  rw [find_ab_ba_seniorities]
  by_cases hcond : 0 ≤ (entry.time : Int) - (rvt.time : Int)
      ∧ (entry.time : Int) - (rvt.time : Int) ≤ 86400
      ∧ entry.reverted = key
      ∧ rvt ∉ st.considered_reverts
      ∧ entry ∉ st.considered_reverts
  · rw [if_pos hcond]
    obtain ⟨-, -, hkey, hrvn, henn⟩ := hcond
    have hne2 : entry ≠ rvt := hne hkey
    refine ⟨?_, ?_, ?_⟩
    · rw [List.nodup_append]
      refine ⟨hnd, by simp [hne2.symm], ?_⟩
      intro a ha hmem
      simp only [List.mem_cons, List.mem_singleton, List.not_mem_nil, or_false] at hmem
      rcases hmem with rfl | rfl
      · exact hrvn ha
      · exact henn ha
    · intro e he
      rcases List.mem_append.1 he with he | he
      · exact hsub e he
      · simp only [List.mem_cons, List.mem_singleton, List.not_mem_nil, or_false] at he
        rcases he with rfl | rfl
        · exact hrv
        · exact hen
    · simp only [List.length_append, List.length_cons, List.length_singleton,
        List.length_nil]
      omega
  · rw [if_neg hcond]
    exact ⟨hnd, hsub, hlen⟩

theorem process_reverter_preserves_nodup (g : Graph)
    (H2 : ∀ p ∈ g, ∀ e ∈ p.2, Edge.reverted e ≠ p.1)
    (key : String) (lst : List Edge) (hmem : (key, lst) ∈ g) (st : AbBaState)
    (h : st.considered_reverts.Nodup
      ∧ (∀ e ∈ st.considered_reverts, e ∈ allEdges g)
      ∧ st.considered_reverts.length = 2 * st.ab_ba_seniorities.length) :
    (process_reverter key lst g st).considered_reverts.Nodup
    ∧ (∀ e ∈ (process_reverter key lst g st).considered_reverts, e ∈ allEdges g)
    ∧ (process_reverter key lst g st).considered_reverts.length
      = 2 * (process_reverter key lst g st).ab_ba_seniorities.length := by
  rw [process_reverter]
  refine foldl_preserve _ (fun st : AbBaState => st.considered_reverts.Nodup
      ∧ (∀ e ∈ st.considered_reverts, e ∈ allEdges g)
      ∧ st.considered_reverts.length = 2 * st.ab_ba_seniorities.length) lst st ?_ h
  intro s revert hrevmem hs
  cases hd : dictGet? g revert.reverted with
  | none => exact hs
  | some entries =>
      refine foldl_preserve _ (fun st : AbBaState => st.considered_reverts.Nodup
          ∧ (∀ e ∈ st.considered_reverts, e ∈ allEdges g)
          ∧ st.considered_reverts.length = 2 * st.ab_ba_seniorities.length)
        entries s ?_ hs
      intro s2 entry hentry hs2
      refine find_ab_ba_preserves_nodup g entry revert key s2
        (mem_allEdges_of_dictGet? hd hentry)
        (mem_allEdges_of_mem hmem hrevmem) ?_ hs2
      intro hkey heq
      exact H2 (key, lst) hmem revert hrevmem (by rw [← heq]; exact hkey)

theorem length_filter_add_mem (c : List Edge) (l : List Edge) :
    (l.filter (fun e => decide (e ∈ c))).length
      + (l.filter (fun e => !(decide (e ∈ c)))).length = l.length := by
  induction l with
  | nil => rfl
  | cons a l ih =>
      by_cases ha : a ∈ c
      · simp [List.filter_cons, ha]
        omega
      · simp [List.filter_cons, ha]
        omega

theorem length_filter_mem_of_nodup (l c : List Edge) (hl : l.Nodup) (hc : c.Nodup)
    (hsub : ∀ e ∈ c, e ∈ l) :
    (l.filter (fun e => decide (e ∈ c))).length = c.length := by
  have hperm : (l.filter (fun e => decide (e ∈ c))).Perm c := by
    rw [List.perm_ext_iff_of_nodup (hl.filter _) hc]
    intro a
    simp only [List.mem_filter, decide_eq_true_eq]
    exact ⟨fun h => h.2, fun h => ⟨hsub a h, h⟩⟩
  exact hperm.length_eq

theorem totalEdges_eq_length (g : Graph) : totalEdges g = (allEdges g).length := by
  simp only [totalEdges, allEdges, List.length_flatten, List.map_map]
  rfl

/-- Claim C5 counterexample: a RevertGraph holding two structurally
identical edges (B reverted A twice, at the same time, with equal
seniorities) together with A's counter-revert. One pairing fires
(consuming one copy of the duplicated value), the second copy is then
treated as consumed by value, so twice the AB-BA count plus the non-AB-BA
count is 2 while the graph has 3 edges. -/
theorem aggregator_invariant_counterexample :
    2 * (process_all_revert_data
        [("B", [⟨"A", 0, 0, 0⟩, ⟨"A", 0, 0, 0⟩]), ("A", [⟨"B", 0, 0, 0⟩])]
        ).ab_ba_seniorities.length
      + (get_non_ab_ba_seniorities
          [("B", [⟨"A", 0, 0, 0⟩, ⟨"A", 0, 0, 0⟩]), ("A", [⟨"B", 0, 0, 0⟩])]
          (process_all_revert_data
            [("B", [⟨"A", 0, 0, 0⟩, ⟨"A", 0, 0, 0⟩]), ("A", [⟨"B", 0, 0, 0⟩])]
            ).considered_reverts).length
      ≠ totalEdges [("B", [⟨"A", 0, 0, 0⟩, ⟨"A", 0, 0, 0⟩]), ("A", [⟨"B", 0, 0, 0⟩])] := by
  decide

/-- Claim C5 amended: for every RevertGraph whose edges are pairwise
structurally distinct across the whole graph and in which no edge's
reverted field equals the reverter key it is stored under, twice the
length of the AB-BA seniorities list plus the length of the non-AB-BA
differences list equals the total edge count of the graph. -/
theorem aggregator_invariant_of_distinct (g : Graph)
    (H1 : (allEdges g).Nodup)
    (H2 : ∀ p ∈ g, ∀ e ∈ p.2, Edge.reverted e ≠ p.1) :
    2 * (process_all_revert_data g).ab_ba_seniorities.length
      + (get_non_ab_ba_seniorities g
          (process_all_revert_data g).considered_reverts).length
    = totalEdges g := by
  have hfin : (process_all_revert_data g).considered_reverts.Nodup
      ∧ (∀ e ∈ (process_all_revert_data g).considered_reverts, e ∈ allEdges g)
      ∧ (process_all_revert_data g).considered_reverts.length
        = 2 * (process_all_revert_data g).ab_ba_seniorities.length := by
    rw [process_all_revert_data]
    refine foldl_preserve _ (fun st : AbBaState => st.considered_reverts.Nodup
        ∧ (∀ e ∈ st.considered_reverts, e ∈ allEdges g)
        ∧ st.considered_reverts.length = 2 * st.ab_ba_seniorities.length)
      g ⟨[], []⟩ ?_ ⟨List.nodup_nil, by simp, rfl⟩
    intro s p hp hs
    exact process_reverter_preserves_nodup g H2 p.1 p.2 (Prod.mk.eta.symm ▸ hp) s hs
  obtain ⟨hnd, hsub, hlen⟩ := hfin
  rw [get_non_ab_ba_eq_filter, List.length_map, totalEdges_eq_length]
  have hsplit := length_filter_add_mem
    (process_all_revert_data g).considered_reverts (allEdges g)
  have hin := length_filter_mem_of_nodup (allEdges g)
    (process_all_revert_data g).considered_reverts H1 hnd hsub
  omega

/-- Witness for the amended C5: a two-edge graph forming one AB-BA pair,
with distinct edges and no self-directed edge. -/
theorem aggregator_invariant_of_distinct_witness :
    (allEdges [("B", [⟨"A", 5, 2, 3⟩]), ("A", [⟨"B", 10, 0, 1⟩])]).Nodup
    ∧ (∀ p ∈ [("B", [(⟨"A", 5, 2, 3⟩ : Edge)]), ("A", [⟨"B", 10, 0, 1⟩])],
        ∀ e ∈ p.2, Edge.reverted e ≠ p.1)
    ∧ 2 * (process_all_revert_data
          [("B", [⟨"A", 5, 2, 3⟩]), ("A", [⟨"B", 10, 0, 1⟩])]).ab_ba_seniorities.length
        + (get_non_ab_ba_seniorities [("B", [⟨"A", 5, 2, 3⟩]), ("A", [⟨"B", 10, 0, 1⟩])]
            (process_all_revert_data
              [("B", [⟨"A", 5, 2, 3⟩]), ("A", [⟨"B", 10, 0, 1⟩])]).considered_reverts
          ).length
      = totalEdges [("B", [⟨"A", 5, 2, 3⟩]), ("A", [⟨"B", 10, 0, 1⟩])] :=
  ⟨by decide, by decide,
    aggregator_invariant_of_distinct [("B", [⟨"A", 5, 2, 3⟩]), ("A", [⟨"B", 10, 0, 1⟩])]
      (by decide) (by decide)⟩

/-! ### Seniority series characterisation -/

theorem dictGetD_dictSet_self {β : Type} (d : List (String × β)) (k : String) (v : β)
    (dflt : β) : dictGetD (dictSet d k v) k dflt = v := by
  simp [dictGetD, dictGet?_dictSet_self]

theorem dictGetD_dictSet_ne {β : Type} (d : List (String × β)) (k k2 : String) (v : β)
    (dflt : β) (h : k2 ≠ k) : dictGetD (dictSet d k v) k2 dflt = dictGetD d k2 dflt := by
  simp [dictGetD, dictGet?_dictSet_ne _ _ _ _ h]

theorem dictGetD_dictAppendAt_self {β : Type} (d : List (String × List β)) (k : String)
    (v : β) : dictGetD (dictAppendAt d k v) k [] = dictGetD d k [] ++ [v] := by
  simp [dictGetD, dictGet?_dictAppendAt_self]

theorem dictGetD_dictAppendAt_ne {β : Type} (d : List (String × List β)) (k k2 : String)
    (v : β) (h : k2 ≠ k) : dictGetD (dictAppendAt d k v) k2 [] = dictGetD d k2 [] := by
  simp [dictGetD, dictGet?_dictAppendAt_ne _ _ _ _ h]

theorem edit_step_spec {α : Type} (log : Nat → α) (E : String)
    (st : List (String × Nat) × EditDic α) (edit : Record)
    (h : (dictGetD st.2 E []).map SenEntry.seniority
      = (List.range (dictGetD st.1 E 0)).map (fun i => log (i + 1))) :
    (dictGetD (dictAppendAt st.2 edit.name
        ⟨edit.time, log (dictGetD st.1 edit.name 0 + 1)⟩) E []).map SenEntry.seniority
      = (List.range
          (dictGetD (dictSet st.1 edit.name (dictGetD st.1 edit.name 0 + 1)) E 0)).map
          (fun i => log (i + 1)) := by
  by_cases hname : edit.name = E
  · subst hname
    rw [dictGetD_dictAppendAt_self, dictGetD_dictSet_self, List.map_append, h,
      List.range_succ, List.map_append]
    simp
  · rw [dictGetD_dictAppendAt_ne _ _ _ _ (fun he => hname he.symm),
      dictGetD_dictSet_ne _ _ _ _ _ (fun he => hname he.symm), h]

theorem process_edit_fold_spec {α : Type} (log : Nat → α) (E : String) :
    ∀ (l : List Record) (st : List (String × Nat) × EditDic α),
      ((dictGetD st.2 E []).map SenEntry.seniority
        = (List.range (dictGetD st.1 E 0)).map (fun i => log (i + 1))) →
      ((dictGetD (l.foldl
          (fun (st : List (String × Nat) × EditDic α) edit =>
            let name := edit.name
            let c := dictGetD st.1 name 0 + 1
            (dictSet st.1 name c,
             dictAppendAt st.2 name ⟨edit.time, log c⟩)) st).2 E []).map
          SenEntry.seniority
        = (List.range (dictGetD (l.foldl
            (fun (st : List (String × Nat) × EditDic α) edit =>
              let name := edit.name
              let c := dictGetD st.1 name 0 + 1
              (dictSet st.1 name c,
               dictAppendAt st.2 name ⟨edit.time, log c⟩)) st).1 E 0)).map
            (fun i => log (i + 1))) := by
  intro l
  induction l with
  | nil => intro st h; exact h
  | cons edit l ih =>
      intro st h
      rw [List.foldl_cons]
      exact ih _ (edit_step_spec log E st edit h)

theorem process_edit_fold_count_pos {α : Type} (log : Nat → α) (E : String) :
    ∀ (l : List Record) (st : List (String × Nat) × EditDic α),
      (E ∈ l.map Record.name ∨ 1 ≤ dictGetD st.1 E 0) →
      1 ≤ dictGetD (l.foldl
          (fun (st : List (String × Nat) × EditDic α) edit =>
            let name := edit.name
            let c := dictGetD st.1 name 0 + 1
            (dictSet st.1 name c,
             dictAppendAt st.2 name ⟨edit.time, log c⟩)) st).1 E 0 := by
  intro l
  induction l with
  | nil =>
      intro st h
      rcases h with h | h
      · simp at h
      · exact h
  | cons edit l ih =>
      intro st h
      rw [List.foldl_cons]
      apply ih
      by_cases hname : edit.name = E
      · right
        subst hname
        show 1 ≤ dictGetD (dictSet st.1 edit.name (dictGetD st.1 edit.name 0 + 1))
          edit.name 0
        rw [dictGetD_dictSet_self]
        omega
      · rcases h with h | h
        · simp only [List.map_cons, List.mem_cons] at h
          rcases h with h | h
          · exact absurd h.symm hname
          · left; exact h
        · right
          show 1 ≤ dictGetD (dictSet st.1 edit.name (dictGetD st.1 edit.name 0 + 1)) E 0
          rw [dictGetD_dictSet_ne _ _ _ _ _ (fun he => hname he.symm)]
          exact h

/-- Claim C7: for every time-sorted input and every editor E appearing in
it, the seniority scores that process_edit_data emits for E (the value
sequence of E's series, in emission order), with math.log(count, 10) read
as the real base-10 logarithm, form a non-decreasing sequence whose first
entry is exactly 0 = log10(1). -/
theorem process_edit_data_monotone_from_zero (content : List Record) (E : String)
    (hsorted : List.Pairwise (fun a b : Record => a.time ≤ b.time) content)
    (hE : E ∈ content.map Record.name) :
    ((dictGetD (process_edit_data (fun n => Real.logb 10 (n : ℝ)) content) E []).map
        SenEntry.seniority).Sorted (· ≤ ·)
    ∧ ((dictGetD (process_edit_data (fun n => Real.logb 10 (n : ℝ)) content) E []).map
        SenEntry.seniority).head? = some 0 := by
  have hspec : (dictGetD (process_edit_data (fun n => Real.logb 10 (n : ℝ)) content)
        E []).map SenEntry.seniority
      = (List.range (dictGetD (content.foldl
          (fun (st : List (String × Nat) × EditDic ℝ) edit =>
            let name := edit.name
            let c := dictGetD st.1 name 0 + 1
            (dictSet st.1 name c,
             dictAppendAt st.2 name ⟨edit.time, Real.logb 10 (c : ℝ)⟩)) ([], [])).1
          E 0)).map (fun i => Real.logb 10 ((i + 1 : Nat) : ℝ)) :=
    process_edit_fold_spec (fun n => Real.logb 10 (n : ℝ)) E content ([], [])
      (by simp [dictGetD, dictGet?])
  have hpos : 1 ≤ dictGetD (content.foldl
      (fun (st : List (String × Nat) × EditDic ℝ) edit =>
        let name := edit.name
        let c := dictGetD st.1 name 0 + 1
        (dictSet st.1 name c,
         dictAppendAt st.2 name ⟨edit.time, Real.logb 10 (c : ℝ)⟩)) ([], [])).1 E 0 :=
    process_edit_fold_count_pos (fun n => Real.logb 10 (n : ℝ)) E content ([], [])
      (Or.inl hE)
  rw [hspec]
  constructor
  · refine (List.pairwise_lt_range _).map _ ?_
    intro a b hab
    have h1 : (0 : ℝ) < ((a + 1 : Nat) : ℝ) := by exact_mod_cast Nat.succ_pos a
    have h2 : ((a + 1 : Nat) : ℝ) ≤ ((b + 1 : Nat) : ℝ) := by
      exact_mod_cast Nat.succ_le_succ (le_of_lt hab)
    exact Real.logb_le_logb_of_le (by norm_num) h1 h2
  · set cfin := dictGetD (content.foldl
        (fun (st : List (String × Nat) × EditDic ℝ) edit =>
          let name := edit.name
          let c := dictGetD st.1 name 0 + 1
          (dictSet st.1 name c,
           dictAppendAt st.2 name ⟨edit.time, Real.logb 10 (c : ℝ)⟩)) ([], [])).1 E 0
      with hcfin
    obtain ⟨k, hk⟩ : ∃ k, cfin = k + 1 := ⟨cfin - 1, by omega⟩
    rw [hk, List.range_succ_eq_map, List.map_cons, List.head?_cons]
    simp [Real.logb_one]

/-- Witness for C7 at a concrete sorted one-edit log. -/
theorem process_edit_data_monotone_from_zero_witness :
    (List.Pairwise (fun a b : Record => a.time ≤ b.time) [⟨0, "0", 1, "A"⟩])
    ∧ ("A" ∈ [(⟨0, "0", 1, "A"⟩ : Record)].map Record.name)
    ∧ (((dictGetD (process_edit_data (fun n => Real.logb 10 (n : ℝ))
            [⟨0, "0", 1, "A"⟩]) "A" []).map SenEntry.seniority).Sorted (· ≤ ·)
      ∧ ((dictGetD (process_edit_data (fun n => Real.logb 10 (n : ℝ))
            [⟨0, "0", 1, "A"⟩]) "A" []).map SenEntry.seniority).head? = some 0) :=
  ⟨by simp, by simp,
    process_edit_data_monotone_from_zero [⟨0, "0", 1, "A"⟩] "A" (by simp) (by simp)⟩
